import Mathlib

/-!
Verification development for the round-based agent execution engine in
`src/models/action.ts` (class `ActionImpl` and its helpers).

The TypeScript source is shallowly embedded as executable Lean functions:
JavaScript values that flow through the engine (tool inputs, tool results,
the finish payload) are modelled by a JSON-value type `JVal`; the JS `Map`
used for the tool registry, the tool-result cache and the context variable
store is modelled by an insertion-ordered association list with JS `Map.set`
update semantics; the streaming LLM transport is modelled from the spec as a
script of per-attempt responses (the transport itself is not part of the
sources; see `Attempt`).  Stateful code becomes explicit state passing.
-/

namespace Eko

/-! ## JSON values

JavaScript values as they appear in the engine: `jundefined` models the JS
`undefined` (absent properties, `Map.get` misses, `Array.pop()` on empty).
Arrays and objects use mutually inductive list types so that all functions
over them are structural (and hence kernel-reducible). -/

mutual

inductive JVal where
  | jundefined
  | jnull
  | bool (b : Bool)
  | num (n : Int)
  | str (s : String)
  | arr (xs : JArr)
  | obj (fs : JObj)

inductive JArr where
  | nil
  | cons (v : JVal) (rest : JArr)

inductive JObj where
  | nil
  | cons (k : String) (v : JVal) (rest : JObj)

end

def JObj.ofList : List (String × JVal) → JObj
  | [] => .nil
  | (k, v) :: rest => .cons k v (JObj.ofList rest)

def JArr.ofList : List JVal → JArr
  | [] => .nil
  | v :: rest => .cons v (JArr.ofList rest)

/-- Construct a JS object value from a field list. -/
def JVal.mkObj (fs : List (String × JVal)) : JVal := .obj (JObj.ofList fs)

/-- Construct a JS array value from an element list. -/
def JVal.mkArr (xs : List JVal) : JVal := .arr (JArr.ofList xs)

def JObj.hasKey : JObj → String → Bool
  | .nil, _ => false
  | .cons k _ rest, key => k == key || JObj.hasKey rest key

/-- Property read on a JS object: the last field with the given key wins
(matching JS object-literal construction, where later duplicate keys
override earlier ones); a missing key reads as `undefined`. -/
def JObj.get : JObj → String → JVal
  | .nil, _ => .jundefined
  | .cons k v rest, key =>
      if JObj.hasKey rest key then JObj.get rest key
      else if k == key then v else .jundefined

/-- JS property access `v.key`: `undefined` on every non-object value. -/
def JVal.getField : JVal → String → JVal
  | .obj fs, key => fs.get key
  | _, _ => .jundefined

/-- JS truthiness of a value (`undefined`, `null`, `false`, `0` and the
empty string are falsy; every object and array is truthy). -/
def JVal.truthy : JVal → Bool
  | .jundefined => false
  | .jnull => false
  | .bool b => b
  | .num n => n != 0
  | .str s => s != ""
  | .arr _ => true
  | .obj _ => true

/-- String-body escaping for the `JSON.stringify` model: double quotes and
backslashes are escaped.  (Control-character escapes of the real builtin
are not modelled; no string the engine serialises in this development
contains them.) -/
def escapeChars : List Char → List Char
  | [] => []
  | c :: cs =>
      (if c = '"' then ['\\', '"']
       else if c = '\\' then ['\\', '\\']
       else [c]) ++ escapeChars cs

def jsonQuote (s : String) : String :=
  String.mk ('"' :: (escapeChars s.data ++ ['"']))

mutual

/-- Model of `JSON.stringify`.  Objects omit `undefined`-valued fields and
arrays serialise `undefined` elements as `null`, as the JS builtin does.
(`JSON.stringify(undefined)` is itself not a string in JS; the engine never
serialises a top-level `undefined`, and the model returns a placeholder.) -/
def stringify : JVal → String
  | .jundefined => "undefined"
  | .jnull => "null"
  | .bool true => "true"
  | .bool false => "false"
  | .num n => toString n
  | .str s => jsonQuote s
  | .arr xs => "[" ++ (stringifyArr xs).drop 1 ++ "]"
  | .obj fs => "\x7b" ++ (stringifyObj fs).drop 1 ++ "\x7d"

/-- Comma-prefixed serialisation of array elements. -/
def stringifyArr : JArr → String
  | .nil => ""
  | .cons v rest =>
      "," ++ (match v with
              | .jundefined => "null"
              | v' => stringify v') ++ stringifyArr rest

/-- Comma-prefixed serialisation of object fields, skipping `undefined`. -/
def stringifyObj : JObj → String
  | .nil => ""
  | .cons k v rest =>
      (match v with
       | .jundefined => ""
       | v' => "," ++ jsonQuote k ++ ":" ++ stringify v') ++ stringifyObj rest

end

/-! ## JS `Map` and the context variable store

A JS `Map` keeps keys in insertion order; `set` on an existing key updates
the value in place, `set` on a new key appends, `delete` removes the entry.
The engine uses this for `toolResults` (the ToolResultCache), the tool
registry and `context.variables`. -/

def mapSet {α : Type} (m : List (String × α)) (k : String) (v : α) :
    List (String × α) :=
  if m.any (fun p => p.1 == k) then
    m.map (fun p => if p.1 == k then (k, v) else p)
  else
    m ++ [(k, v)]

def mapGet {α : Type} (m : List (String × α)) (k : String) : Option α :=
  (m.find? (fun p => p.1 == k)).map (fun p => p.2)

def mapDelete {α : Type} (m : List (String × α)) (k : String) :
    List (String × α) :=
  m.filter (fun p => p.1 != k)

/-- Read of `context.variables.get(k)`: a missing key reads as `undefined`. -/
def varGet (m : List (String × JVal)) (k : String) : JVal :=
  (mapGet m k).getD .jundefined

/-! ## Messages -/

inductive Role where
  | system
  | assistant
  | user
  deriving DecidableEq

/-- Inner content of a `tool_result` block: text or image entries. -/
inductive ContentItem where
  | text (s : String)
  | image (source : JVal)

def ContentItem.isImage : ContentItem → Bool
  | .image _ => true
  | _ => false

/-- A content block of a message.  `tool_result` content is either a plain
string (the `skip` and tool-not-found paths) or a list of items; `is_error`
is only ever set by the error path and absent (falsy) otherwise. -/
inductive ContentBlock where
  | toolUse (id name : String) (input : JVal)
  | toolResultStr (toolUseId : String) (content : String)
  | toolResult (toolUseId : String) (content : List ContentItem) (isError : Bool)

inductive MsgContent where
  | str (s : String)
  | blocks (items : List ContentBlock)

structure Message where
  role : Role
  content : MsgContent

/-! ## `handleHistoryImageMessages` (image pruning)

Embeds `ActionImpl.handleHistoryImageMessages`: scanning from the newest
message backward, the first user-role message is left untouched; every
earlier user-role message with array content has image items filtered out
of each array-form `tool_result` block, and a block whose item list becomes
empty is replaced by the single text item `ok`.  (An originally empty item
list is left alone: the source guards with `item.content.length > 0`.) -/

def stripBlock : ContentBlock → ContentBlock
  | .toolResult id content isErr =>
      if content.length > 0 then
        let filtered := content.filter (fun c => !c.isImage)
        if filtered.length = 0 then .toolResult id [.text "ok"] isErr
        else .toolResult id filtered isErr
      else .toolResult id content isErr
  | b => b

def stripMsg (m : Message) : Message :=
  match m.content with
  | .blocks items => { m with content := .blocks (items.map stripBlock) }
  | _ => m

/-- The transformation image pruning applies to a message that is not the
most recent user-role one: user-role messages are stripped, the rest pass
through. -/
def stripIfUser (m : Message) : Message :=
  if m.role = .user then stripMsg m else m

/-- The backward scan of `handleHistoryImageMessages`, expressed on the
reversed message list; the flag records whether the most recent user-role
message has already been passed. -/
def pruneRev : Bool → List Message → List Message
  | _, [] => []
  | found, m :: rest =>
      if m.role = .user then
        if found then stripMsg m :: pruneRev true rest
        else m :: pruneRev true rest
      else m :: pruneRev found rest

def handleHistoryImageMessages (messages : List Message) : List Message :=
  (pruneRev false messages.reverse).reverse

/-! ## Tool calls and the envelope adapter -/

structure ToolCall where
  id : String
  name : String
  input : JVal

structure ToolDefinition where
  name : String
  description : String
  input_schema : JVal

/-- Embeds `ActionImpl.wrapToolInputSchema`: the declared input schema is
replaced, for model consumption, by an envelope object requiring
`observation`, `thinking`, `userSidePrompt` and the true schema under
`toolCall`. -/
def wrapToolInputSchema (definition : ToolDefinition) : ToolDefinition :=
  { definition with
    input_schema := JVal.mkObj [
      ("type", .str "object"),
      ("properties", JVal.mkObj [
        ("observation", JVal.mkObj [
          ("type", .str "string"),
          ("description", .str "Your observation of the previous steps. Should start with \"In the previous step, I've ...\".")]),
        ("thinking", JVal.mkObj [
          ("type", .str "string"),
          ("description", .str "Your thinking draft.")]),
        ("userSidePrompt", JVal.mkObj [
          ("type", .str "string"),
          ("description", .str "The user-side prompt, showing what you are doing. e.g. \"Openning x.com.\" or \"Writing the post.\"")]),
        ("toolCall", definition.input_schema)]),
      ("required", JVal.mkArr
        [.str "observation", .str "thinking", .str "userSidePrompt", .str "toolCall"])] }

structure UnwrappedToolCall where
  observation : JVal
  thinking : JVal
  userSidePrompt : JVal
  toolCall : ToolCall

/-- Embeds `ActionImpl.unwrapToolCall`: destructure a model invocation back
into the three wrapper fields and the inner invocation (same id and name,
input taken from the nested `toolCall` property). -/
def unwrapToolCall (toolCall : ToolCall) : UnwrappedToolCall :=
  { observation := toolCall.input.getField "observation"
    thinking := toolCall.input.getField "thinking"
    userSidePrompt := toolCall.input.getField "userSidePrompt"
    toolCall := { id := toolCall.id, name := toolCall.name
                  input := toolCall.input.getField "toolCall" } }

/-! ## Tools, hooks and the execution context -/

/-- Behaviour of an optional `beforeToolUse`/`afterToolUse` hook for one
invocation.  `modify` models a hook returning a replacement value (the
source keeps the original unless the returned value is truthy); `setSkip`
models a before-hook setting `context.__skip`; `throwErr` a hook that
throws an `Error` with the given message. -/
inductive HookBehavior where
  | missing
  | modify (v : JVal)
  | setSkip
  | throwErr (msg : String)

/-- A hook behaviour that lets execution reach the capability: absent, or
rewriting the input or result. -/
def HookBehavior.isBenign : HookBehavior → Bool
  | .missing => true
  | .modify _ => true
  | _ => false

/-- Behaviour of a capability's `execute`: return a result value, or throw
an `Error` with the given message, or (for the synthetic finish capability
built by `createReturnTool`) store the finish payload into the variable
store.  Thrown errors are modelled as `Error` instances, so the source's
`err instanceof Error ? err.message : ...` always takes the message
branch. -/
inductive ToolSpec where
  | pureResult (result : JVal)
  | throwErr (msg : String)
  | returnOutput (actionName : String)

structure Tool where
  name : String
  description : String
  input_schema : JVal
  spec : ToolSpec

/-- The per-run mutable `ExecutionContext`: the variable store (a JS `Map`),
the cancellation signal, and the optional lifecycle hooks.  The signal is
modelled as constant over the run (cancellation mid-stream is timing
behaviour outside the shallow embedding). -/
structure ExecutionContext where
  vars : List (String × JVal)
  signalAborted : Bool
  beforeHook : HookBehavior
  afterHook : HookBehavior

/-- Embeds the `execute` of `createReturnTool` (the synthetic finish
capability): store the payload under the run-scoped output key, then store
the payload's `isSuccessful` field under `__isSuccessful__`, and return a
success object. -/
def returnOutputExecute (actionName : String) (context : ExecutionContext)
    (params : JVal) : ExecutionContext × JVal :=
  let context := { context with
    vars := mapSet context.vars ("__action_" ++ actionName ++ "_output") params }
  let context := { context with
    vars := mapSet context.vars "__isSuccessful__" (params.getField "isSuccessful") }
  (context, JVal.mkObj [("success", .bool true)])

/-- Embeds `createReturnTool` (schema as declared in the source; the
`value` property defaults to the any-JSON schema when no output schema is
supplied). -/
def createReturnTool (actionName outputDescription : String)
    (outputSchema : Option JVal) : Tool :=
  { name := "return_output"
    description := "Return the final output of this action. Use this to return a value matching the required output schema (if specified) and the following description:\n      " ++ outputDescription ++ "\n\n      You can either set 'use_tool_result=true' to return the result of a previous tool call, or explicitly specify 'value' with 'use_tool_result=false' to return a value according to your own understanding. Whenever possible, reuse tool results to avoid redundancy.\n      "
    input_schema := JVal.mkObj [
      ("type", .str "object"),
      ("properties", JVal.mkObj [
        ("isSuccessful", JVal.mkObj [
          ("type", .str "boolean"),
          ("description", .str "`true` if the workflow ultimately executes successfully, and `false` when the workflow ultimately fails, regardless of whether there are errors during the workflow.")]),
        ("use_tool_result", JVal.mkObj [
          ("type", JVal.mkArr [.str "boolean"]),
          ("description", .str "Whether to use the latest tool result as output. When set to true, the 'value' parameter is ignored.")]),
        ("value", outputSchema.getD (JVal.mkObj [
          ("type", JVal.mkArr [.str "string", .str "number", .str "boolean", .str "object", .str "null"]),
          ("description", .str "The output value. Only provide a value if the previous tool result is not suitable for the output description. Otherwise, leave this as null.")]))]),
      ("required", JVal.mkArr [.str "isSuccessful", .str "use_tool_result", .str "value"])]
    spec := .returnOutput actionName }

/-- Dispatch of `tool.execute(context, input)`. -/
def toolExecute (tool : Tool) (context : ExecutionContext) (input : JVal) :
    Except String (ExecutionContext × JVal) :=
  match tool.spec with
  | .pureResult result => .ok (context, result)
  | .throwErr msg => .error msg
  | .returnOutput actionName => .ok (returnOutputExecute actionName context input)

/-- The `tool_result` message synthesized by the catch block of the tool
execution: `is_error` set, text `Error: ` followed by the error message. -/
def errorToolResultMessage (toolUseId msg : String) : Message :=
  ⟨.user, .blocks [.toolResult toolUseId [.text ("Error: " ++ msg)] true]⟩

/-- The `text` field of a tool result used as message text (tools produce
string `text` fields; any other value is serialised). -/
def jsTextOf : JVal → String
  | .str s => s
  | v => stringify v

/-- Embeds the `truncate` helper inside `executeSingleRound` (applied to
the value logged after a tool call): serialised form below 1000 characters
keeps the original value, otherwise the first 1000 characters suffixed
`...(truncated)`. -/
def truncate (x : JVal) : JVal :=
  let s := stringify x
  if s.length < 1000 then x
  else .str (String.mk (s.data.take 1000) ++ "...(truncated)")

/-- Embeds the body of `toolExecutionPromise` in `executeSingleRound`
(source lines 175-295): before-hook, skip check, envelope unwrap, tool
execution, after-hook, result-message assembly and the tool-result cache
update, with every throw along the way caught and turned into an
`is_error` `tool_result`.  Returns the updated context, the updated
cache (`this.toolResults`) and the `tool_result` message. -/
def toolExecution (tool : Tool) (toolCall : ToolCall) (context : ExecutionContext)
    (toolResults : List (String × String)) :
    ExecutionContext × List (String × String) × Message :=
  match context.beforeHook with
  | .throwErr msg => (context, toolResults, errorToolResultMessage toolCall.id msg)
  | hb =>
      let toolCall :=
        match hb with
        | .modify v => if v.truthy then { toolCall with input := v } else toolCall
        | _ => toolCall
      let skip := (match hb with | .setSkip => true | _ => false) || context.signalAborted
      if skip then
        (context, toolResults, ⟨.user, .blocks [.toolResultStr toolCall.id "skip"]⟩)
      else
        let unwrapped := unwrapToolCall toolCall
        let input := unwrapped.toolCall.input
        match toolExecute tool context input with
        | .error msg => (context, toolResults, errorToolResultMessage toolCall.id msg)
        | .ok (context, result) =>
            match context.afterHook with
            | .throwErr msg => (context, toolResults, errorToolResultMessage toolCall.id msg)
            | ah =>
                let result :=
                  match ah with
                  | .modify v => if v.truthy then v else result
                  | _ => result
                let resultHasImage := result.truthy && (result.getField "image").truthy
                let resultMessage : Message :=
                  if resultHasImage then
                    if (result.getField "text").truthy then
                      ⟨.user, .blocks [.toolResult toolCall.id
                        [.image (result.getField "image"),
                         .text (jsTextOf (result.getField "text"))] false]⟩
                    else
                      ⟨.user, .blocks [.toolResult toolCall.id
                        [.image (result.getField "image")] false]⟩
                  else
                    ⟨.user, .blocks [.toolResult toolCall.id
                      [.text (stringify result)] false]⟩
                let resultContentText : String :=
                  if resultHasImage then
                    if (result.getField "text").truthy then
                      jsTextOf (result.getField "text") ++ " [Image]"
                    else "[Image]"
                  else stringify result
                let toolResults :=
                  if tool.name != "return_output" then
                    mapSet toolResults toolCall.id resultContentText
                  else toolResults
                (context, toolResults, resultMessage)

/-! ## One streaming round -/

/-- Modelled from the spec: one attempt of the streaming LLM transport
(`llmProvider.generateStream`, a consumed external interface whose code is
not among the sources).  Per spec section 6 a stream delivers incremental
text (accumulated here into `text`), at most one structured capability
invocation, and a terminal completion carrying the response; `onToolUse`
may throw, and a stream may instead fail with a transport error
(`transportError`), which the source catches and answers by retrying the
round.  A thrown `onToolUse` callback rejects the transport call (the spec
makes mapping such a throw the core's responsibility rather than the
transport's), so it surfaces at the same catch. -/
structure Attempt where
  text : String
  toolUse : Option ToolCall
  transportError : Bool

structure LLMResponse where
  textContent : String
  toolCalls : List ToolCall

structure RoundResult where
  response : Option LLMResponse
  hasToolUse : Bool
  roundMessages : List Message

/-- Embeds `ActionImpl.executeSingleRound` driven by a transport script:
each loop iteration prunes history images in place, then consumes one
attempt; a transport error or a thrown `onToolUse` (unknown capability)
discards the partial round and retries with the next attempt.  Returns
`none` when the script is exhausted (the source would keep retrying
forever) and otherwise the remaining script, updated context, updated
tool-result cache, the (pruned) history and the round result. -/
def executeSingleRound (toolMap : List (String × Tool)) :
    List Attempt → ExecutionContext → List (String × String) → List Message →
    Option (List Attempt × ExecutionContext × List (String × String) ×
            List Message × RoundResult)
  | [], context, toolResults, messages =>
    if context.signalAborted then
      some ([], context, toolResults, messages, ⟨none, false, []⟩)
    else none
  | attempt :: rest, context, toolResults, messages =>
    if context.signalAborted then
      some (attempt :: rest, context, toolResults, messages, ⟨none, false, []⟩)
    else
          let messages := handleHistoryImageMessages messages
          if attempt.transportError then
            executeSingleRound toolMap rest context toolResults messages
          else
            match attempt.toolUse with
            | none =>
                some (rest, context, toolResults, messages,
                  ⟨some ⟨attempt.text, []⟩, false,
                   if attempt.text != "" then [⟨.assistant, .str attempt.text⟩] else []⟩)
            | some toolCall =>
                match mapGet toolMap toolCall.name with
                | none =>
                    executeSingleRound toolMap rest context toolResults messages
                | some tool =>
                    let toolUseMessage : Message :=
                      ⟨.assistant, .blocks [.toolUse toolCall.id tool.name toolCall.input]⟩
                    let (context, toolResults, toolResultMessage) :=
                      toolExecution tool toolCall context toolResults
                    some (rest, context, toolResults, messages,
                      ⟨some ⟨attempt.text, [toolCall]⟩, true,
                       (if attempt.text != "" then [⟨.assistant, .str attempt.text⟩] else []) ++
                       [toolUseMessage, toolResultMessage]⟩)

/-! ## The agent loop (`ActionImpl.execute`)

The loop's LLM parameters influence the run only through the registry
handed to each round (full registry for regular rounds, the finish
capability alone for forced rounds); the advertised schemas themselves are
covered by the separate mutation model below (`prepareRoundParams`) and by
`wrapToolInputSchema`. -/

def requestReturnMessage : Message :=
  ⟨.user, .str "Please process the above information and return a final result using the return_output tool."⟩

def maxRoundsReachedMessage : Message :=
  ⟨.user, .str "Maximum number of steps reached. Please return the best result possible with the return_output tool."⟩

def responseHasReturnOutput : Option LLMResponse → Bool
  | some r => r.toolCalls.any (fun c => c.name == "return_output")
  | none => false

/-- Loop state of `ActionImpl.execute`, with bookkeeping for committed
rounds: `regularRounds` counts loop iterations whose round messages were
appended to history, `forcedRounds` the extra finish-only rounds. -/
structure LoopState where
  script : List Attempt
  context : ExecutionContext
  toolResults : List (String × String)
  messages : List Message
  roundCount : Nat
  regularRounds : Nat
  forcedRounds : Nat

/-- Embeds the `while (roundCount < this.maxRounds)` loop of
`ActionImpl.execute`: cancellation check, one regular round, committing
its messages, then the termination checks in source order (text-only
response forces one finish round and breaks; a `return_output` call
breaks; reaching the configured maximum forces one finish round and lets
the loop condition end the run).  `fuel` only bounds the recursion and is
instantiated with `maxRounds` (enough for every run, since `roundCount`
grows by one per iteration); `none` models a run that never completes
(cancellation or an exhausted transport script). -/
def mainLoop (maxRounds : Nat) (toolMap returnOnlyMap : List (String × Tool)) :
    Nat → LoopState → Option LoopState
  | 0, ls => if ls.roundCount < maxRounds then none else some ls
  | fuel + 1, ls =>
    if ls.roundCount < maxRounds then
        if ls.context.signalAborted then none
        else
          let roundCount := ls.roundCount + 1
          match executeSingleRound toolMap ls.script ls.context ls.toolResults ls.messages with
          | none => none
          | some (script, context, toolResults, messages, round) =>
              let messages := messages ++ round.roundMessages
              if !round.hasToolUse && round.response.isSome then
                let messages := messages ++ [requestReturnMessage]
                match executeSingleRound returnOnlyMap script context toolResults messages with
                | none => none
                | some (script, context, toolResults, messages, finalRound) =>
                    some ⟨script, context, toolResults, messages ++ finalRound.roundMessages,
                          roundCount, ls.regularRounds + 1, ls.forcedRounds + 1⟩
              else if responseHasReturnOutput round.response then
                some ⟨script, context, toolResults, messages, roundCount,
                      ls.regularRounds + 1, ls.forcedRounds⟩
              else if roundCount = maxRounds then
                let messages := messages ++ [maxRoundsReachedMessage]
                match executeSingleRound returnOnlyMap script context toolResults messages with
                | none => none
                | some (script, context, toolResults, messages, finalRound) =>
                    mainLoop maxRounds toolMap returnOnlyMap fuel
                      ⟨script, context, toolResults, messages ++ finalRound.roundMessages,
                       roundCount, ls.regularRounds + 1, ls.forcedRounds + 1⟩
              else
                mainLoop maxRounds toolMap returnOnlyMap fuel
                  ⟨script, context, toolResults, messages, roundCount,
                   ls.regularRounds + 1, ls.forcedRounds⟩
    else some ls

/-- Embeds the finalization step of `ActionImpl.execute` (source lines
543-562): read the finish payload from the variable store (an absent or
falsy payload yields the empty object), delete the key, then either pop
the most recent tool-result cache value (`use_tool_result` truthy) or take
the declared `value`; an `undefined` outcome yields the empty object. -/
def finalizeOutput (name : String) (context : ExecutionContext)
    (toolResults : List (String × String)) : ExecutionContext × JVal :=
  let outputKey := "__action_" ++ name ++ "_output"
  let outputParams := varGet context.vars outputKey
  if !outputParams.truthy then (context, JVal.mkObj [])
  else
    let context := { context with vars := mapDelete context.vars outputKey }
    let outputValue : JVal :=
      if (outputParams.getField "use_tool_result").truthy then
        match (toolResults.map (fun p => p.2)).getLast? with
        | some s => .str s
        | none => .jundefined
      else outputParams.getField "value"
    match outputValue with
    | .jundefined => (context, JVal.mkObj [])
    | v => (context, v)

/-- The registry (a JS `Map` keyed by name, later `set` overriding
earlier). -/
def buildToolMap (tools : List Tool) : List (String × Tool) :=
  tools.foldl (fun m t => mapSet m t.name t) []

structure RunOutput where
  nodeOutput : JVal
  reacts : List Message

/-- Embeds `ActionImpl.execute`: build the finish capability and the
registry (the action's tools — which include the `WriteContextTool`
appended by the constructor — then the context's tools, then the finish
capability), seed history with the system and task messages (the prompt
template text is out of the spec's scope and is passed in), run the round
loop, and extract the final value.  Returns the node output together with
the full transcript (`reacts`), or `none` for a run that never
completes. -/
def executeRun (maxRounds : Nat) (name outputDescription : String)
    (outputSchema : Option JVal) (tools ctxTools : List Tool)
    (systemPrompt userPrompt : String) (script : List Attempt)
    (context : ExecutionContext) : Option (RunOutput × LoopState) :=
  let returnTool := createReturnTool name outputDescription outputSchema
  let toolMap := mapSet (buildToolMap (tools ++ ctxTools)) returnTool.name returnTool
  let messages : List Message := [⟨.system, .str systemPrompt⟩, ⟨.user, .str userPrompt⟩]
  match mainLoop maxRounds toolMap [(returnTool.name, returnTool)] maxRounds
      ⟨script, context, [], messages, 0, 0, 0⟩ with
  | none => none
  | some ls =>
      let (context, nodeOutput) := finalizeOutput name ls.context ls.toolResults
      some (⟨nodeOutput, ls.messages⟩, { ls with context := context })

/-! ## Aliasing model for the round's parameter copy

`executeSingleRound` starts with
`params_copy = JSON.parse(JSON.stringify(params))` and then wraps each
tool schema with `wrapToolInputSchema`, which mutates the
`ToolDefinition` it is handed (it assigns `definition.input_schema`).
To state that the caller's definitions survive, the mutable
`ToolDefinition` objects live in an explicit heap of cells addressed by
index; `params.tools` is a list of addresses.  The JSON round trip
allocates fresh cells holding equal values; the wrap pass then mutates
the fresh cells in place. -/

structure DefHeap where
  cells : List ToolDefinition

instance : Inhabited ToolDefinition := ⟨⟨"", "", .jundefined⟩⟩

def DefHeap.read (h : DefHeap) (a : Nat) : ToolDefinition :=
  h.cells.getD a default

/-- The deep copy `JSON.parse(JSON.stringify(params))` restricted to the `tools` array:
fresh definition objects with the same field values, appended to the
heap; the returned addresses are the copy's. -/
def deepCopyTools (h : DefHeap) (tools : List Nat) : DefHeap × List Nat :=
  (⟨h.cells ++ tools.map (fun a => h.read a)⟩,
   List.range' h.cells.length tools.length)

/-- One in-place `wrapToolInputSchema` call on the definition stored at
address `a`. -/
def wrapAt (h : DefHeap) (a : Nat) : DefHeap :=
  ⟨h.cells.set a (wrapToolInputSchema (h.read a))⟩

/-- The pass `params_copy.tools?.map(this.wrapToolInputSchema)`: the map's callback
mutates each definition and returns it, so the heap is threaded left to
right and the addresses are unchanged. -/
def wrapAll (h : DefHeap) : List Nat → DefHeap
  | [] => h
  | a :: rest => wrapAll (wrapAt h a) rest

/-- Embeds source lines 97-98 of `executeSingleRound`: deep-copy the
parameters, then wrap every copied tool schema in place.  Returns the
final heap and the addresses the round's own parameters use. -/
def prepareRoundParams (h : DefHeap) (paramsTools : List Nat) : DefHeap × List Nat :=
  let (h₁, copyTools) := deepCopyTools h paramsTools
  (wrapAll h₁ copyTools, copyTools)

/-! ## Shared example data for witnesses -/

/-- An execution context with an empty variable store, no cancellation and
no hooks. -/
def emptyContext : ExecutionContext := ⟨[], false, .missing, .missing⟩

/-- A model invocation input in envelope form. -/
def envInput (inner : JVal) : JVal :=
  JVal.mkObj [("observation", .str "o"), ("thinking", .str "t"),
              ("userSidePrompt", .str "u"), ("toolCall", inner)]

/-- A finish-call input whose payload asks for the latest tool result. -/
def finishReuseInput : JVal :=
  envInput (JVal.mkObj [("isSuccessful", .bool true),
                        ("use_tool_result", .bool true), ("value", .jnull)])

/-- A finish-call input whose payload declares the value `done`. -/
def finishValueInput : JVal :=
  envInput (JVal.mkObj [("isSuccessful", .bool true),
                        ("use_tool_result", .bool false), ("value", .str "done")])

def toolA : Tool := ⟨"tool_a", "returns A", .jundefined, .pureResult (.str "A")⟩

def toolB : Tool := ⟨"tool_b", "returns B", .jundefined, .pureResult (.str "B")⟩

def toolThrow : Tool := ⟨"tool_throw", "always throws", .jundefined, .throwErr "disk full"⟩

/-- A 2000-character string whose serialisation exceeds the log-truncation
cap. -/
def longAText : String := String.mk (List.replicate 2000 'a')

def toolLong : Tool := ⟨"tool_long", "returns a long string", .jundefined, .pureResult (.str longAText)⟩

def attemptA : Attempt := ⟨"", some ⟨"id1", "tool_a", envInput .jnull⟩, false⟩

def attemptB : Attempt := ⟨"", some ⟨"id2", "tool_b", envInput .jnull⟩, false⟩

def attemptThrow : Attempt := ⟨"", some ⟨"id1", "tool_throw", envInput .jnull⟩, false⟩

def attemptUnknown : Attempt := ⟨"", some ⟨"id0", "nonexistent_tool", envInput .jnull⟩, false⟩

def attemptTextOnly : Attempt := ⟨"hello", none, false⟩

def attemptFinishReuse : Attempt := ⟨"", some ⟨"id9", "return_output", finishReuseInput⟩, false⟩

def attemptFinishValue : Attempt := ⟨"", some ⟨"id9", "return_output", finishValueInput⟩, false⟩

/-- Transcript of the one-round finish-only example run. -/
def finishOnlyRunMessages : List Message :=
  [⟨.system, .str "s"⟩, ⟨.user, .str "u"⟩,
   ⟨.assistant, .blocks [.toolUse "id9" "return_output" finishReuseInput]⟩,
   ⟨.user, .blocks [.toolResult "id9"
      [.text (stringify (JVal.mkObj [("success", .bool true)]))] false]⟩]

/-- Final loop state of the one-round finish-only example run. -/
def finishOnlyRunFinal : LoopState :=
  ⟨[], ⟨[("__isSuccessful__", .bool true)], false, .missing, .missing⟩, [],
   finishOnlyRunMessages, 1, 1, 0⟩

/-- Final loop state of the text-only-then-forced-finish example run. -/
def textOnlyRunFinal : LoopState :=
  ⟨[],
   ⟨[("__action_w8_output",
      JVal.mkObj [("isSuccessful", .bool true), ("use_tool_result", .bool false),
                  ("value", .str "done")]),
     ("__isSuccessful__", .bool true)], false, .missing, .missing⟩,
   [],
   [⟨.assistant, .str "hello"⟩, requestReturnMessage,
    ⟨.assistant, .blocks [.toolUse "id9" "return_output" finishValueInput]⟩,
    ⟨.user, .blocks [.toolResult "id9"
       [.text (stringify (JVal.mkObj [("success", .bool true)]))] false]⟩],
   1, 1, 1⟩

/-! ## Lemmas on the JS `Map` model -/

lemma find?_map_set_ne {α : Type} (m : List (String × α)) (k k' : String) (v : α)
    (h : k' ≠ k) :
    (m.map (fun p => if p.1 == k then (k, v) else p)).find? (fun p => p.1 == k')
      = m.find? (fun p => p.1 == k') := by
  induction m with
  | nil => rfl
  | cons p rest ih =>
      rw [List.map_cons, List.find?_cons, List.find?_cons]
      by_cases hp : p.1 = k
      · rw [if_pos (by simpa [beq_iff_eq] using hp)]
        have h1 : ((k, v).1 == k') = false := by
          simp only [beq_eq_false_iff_ne]; exact fun hkk => h hkk.symm
        have h2 : (p.1 == k') = false := by
          simp only [beq_eq_false_iff_ne, hp]; exact fun hkk => h hkk.symm
        rw [h1, h2]
        exact ih
      · rw [if_neg (by simpa [beq_iff_eq] using hp)]
        cases hpk' : (p.1 == k') with
        | true => rfl
        | false => exact ih

lemma find?_map_set_self {α : Type} (m : List (String × α)) (k : String) (v : α)
    (hany : m.any (fun p => p.1 == k) = true) :
    (m.map (fun p => if p.1 == k then (k, v) else p)).find? (fun p => p.1 == k)
      = some (k, v) := by
  induction m with
  | nil => simp at hany
  | cons p rest ih =>
      rw [List.map_cons, List.find?_cons]
      by_cases hp : p.1 = k
      · rw [if_pos (by simpa [beq_iff_eq] using hp)]
        simp
      · rw [if_neg (by simpa [beq_iff_eq] using hp)]
        have hpk : (p.1 == k) = false := by simpa [beq_eq_false_iff_ne] using hp
        rw [hpk]
        exact ih (by simpa [List.any_cons, hpk] using hany)

lemma mapGet_mapSet_ne {α : Type} (m : List (String × α)) (k k' : String) (v : α)
    (h : k' ≠ k) :
    mapGet (mapSet m k v) k' = mapGet m k' := by
  unfold mapSet
  split
  · unfold mapGet
    rw [find?_map_set_ne m k k' v h]
  · unfold mapGet
    rw [List.find?_append]
    have h1 : ((k, v).1 == k') = false := by
      simp only [beq_eq_false_iff_ne]; exact fun hkk => h hkk.symm
    simp [List.find?_cons, h1]

lemma mapGet_mapSet_self {α : Type} (m : List (String × α)) (k : String) (v : α) :
    mapGet (mapSet m k v) k = some v := by
  unfold mapSet
  split
  next hany =>
    unfold mapGet
    rw [find?_map_set_self m k v hany]
    rfl
  next hany =>
    have hfalse : ∀ x ∈ m, (x.1 == k) = false := by
      intro x hx
      by_contra hcon
      exact hany (List.any_eq_true.mpr ⟨x, hx, by simpa using hcon⟩)
    have hnone : m.find? (fun p => p.1 == k) = none :=
      List.find?_eq_none.mpr (fun x hx => by simp [hfalse x hx])
    unfold mapGet
    rw [List.find?_append, hnone]
    simp [List.find?_cons]

/-- The run-scoped output key never collides with `__isSuccessful__`
(their third characters differ). -/
lemma outputKey_ne_isSuccessful (name : String) :
    ("__action_" ++ name ++ "_output") ≠ "__isSuccessful__" := by
  intro h
  have h2 : (("__action_" ++ name) ++ "_output").data[2]? = "__isSuccessful__".data[2]? := by
    rw [h]
  rw [String.data_append, String.data_append] at h2
  rw [List.getElem?_append_left (by
    rw [List.length_append]
    have h9 : "__action_".data.length = 9 := rfl
    omega)] at h2
  rw [List.getElem?_append_left (by decide)] at h2
  exact absurd h2 (by decide)

/-! ## C9: the envelope adapter pair is a lossless round trip -/

/-- C9.  For every invocation whose input carries the four envelope fields
(`observation`, `thinking`, `userSidePrompt` and the true input under
`toolCall`), `unwrapToolCall` recovers exactly the three wrapper fields and
an inner invocation with the same id and name whose input is the nested
`toolCall` value; and `wrapToolInputSchema` stores the original schema
unaltered under `properties.toolCall` with exactly those four required
fields, so wrapping loses no information either. -/
theorem envelope_roundTrip (id name o t u : String) (inner : JVal) (d : ToolDefinition) :
    unwrapToolCall ⟨id, name,
        JVal.mkObj [("observation", .str o), ("thinking", .str t),
                    ("userSidePrompt", .str u), ("toolCall", inner)]⟩
      = ⟨.str o, .str t, .str u, ⟨id, name, inner⟩⟩
    ∧ ((wrapToolInputSchema d).input_schema.getField "properties").getField "toolCall"
        = d.input_schema
    ∧ (wrapToolInputSchema d).input_schema.getField "required"
        = JVal.mkArr [.str "observation", .str "thinking", .str "userSidePrompt", .str "toolCall"]
    ∧ (wrapToolInputSchema d).name = d.name
    ∧ (wrapToolInputSchema d).description = d.description := by
  refine ⟨?_, rfl, rfl, rfl, rfl⟩
  simp only [unwrapToolCall, JVal.mkObj, JObj.ofList, JVal.getField, JObj.get, JObj.hasKey]
  rfl

/-! ## C4: what the finish capability's execute writes

The claim says the execute stores the payload under the single run-scoped
key and changes nothing else.  The source also stores the payload's
`isSuccessful` field under the second key `__isSuccessful__`
(source line 54), so the claim fails; the amended statement records both
writes and proves nothing else changes. -/

/-- C4 counterexample.  Executing the finish capability on an empty
variable store writes the key `__isSuccessful__`, which is distinct from
the run-scoped output key — contradicting the claim that no other key of
the variable store is written. -/
theorem returnOutput_extraKey_counterexample :
    mapGet (returnOutputExecute "test" emptyContext
        (JVal.mkObj [("isSuccessful", .bool true), ("use_tool_result", .bool false),
                     ("value", .jnull)])).1.vars "__isSuccessful__"
      = some (.bool true)
    ∧ "__isSuccessful__" ≠ "__action_test_output" := by
  exact ⟨rfl, by decide⟩

/-- C4 amended.  Executing the finish capability stores the payload under
the run-scoped key `__action_<name>_output` and additionally stores the
payload's `isSuccessful` field under `__isSuccessful__`; no other key of
the variable store is written or deleted, every other context field is
unchanged, and the call returns the success object without performing any
other action. -/
theorem returnOutput_frame (name : String) (context : ExecutionContext) (params : JVal) :
    (∀ k, k ≠ "__action_" ++ name ++ "_output" → k ≠ "__isSuccessful__" →
        mapGet (returnOutputExecute name context params).1.vars k = mapGet context.vars k)
    ∧ mapGet (returnOutputExecute name context params).1.vars
        ("__action_" ++ name ++ "_output") = some params
    ∧ mapGet (returnOutputExecute name context params).1.vars
        "__isSuccessful__" = some (params.getField "isSuccessful")
    ∧ (returnOutputExecute name context params).1.signalAborted = context.signalAborted
    ∧ (returnOutputExecute name context params).1.beforeHook = context.beforeHook
    ∧ (returnOutputExecute name context params).1.afterHook = context.afterHook
    ∧ (returnOutputExecute name context params).2
        = JVal.mkObj [("success", .bool true)] := by
  unfold returnOutputExecute
  refine ⟨?_, ?_, ?_, rfl, rfl, rfl, rfl⟩
  · intro k hk1 hk2
    simp only
    rw [mapGet_mapSet_ne _ _ _ _ hk2, mapGet_mapSet_ne _ _ _ _ hk1]
  · simp only
    rw [mapGet_mapSet_ne _ _ _ _ (outputKey_ne_isSuccessful name), mapGet_mapSet_self]
  · simp only
    rw [mapGet_mapSet_self]

/-- C4 amended, witness: the frame theorem applied at a concrete run. -/
theorem returnOutput_frame_witness :
    mapGet (returnOutputExecute "test" emptyContext
        (JVal.mkObj [("isSuccessful", .bool true), ("use_tool_result", .bool false),
                     ("value", .jnull)])).1.vars "other"
      = mapGet emptyContext.vars "other" := by
  exact (returnOutput_frame "test" emptyContext
      (JVal.mkObj [("isSuccessful", .bool true), ("use_tool_result", .bool false),
                   ("value", .jnull)])).1 "other" (by decide) (by decide)

/-! ## Helper lemmas on `toolExecution` -/

/-- On a successful capability whose result carries no image, and with no
hooks, skip or cancellation in play, `toolExecution` leaves the context
alone, records the full serialised result in the cache (unless the
capability is the finish capability) and emits a plain text
`tool_result`. -/
lemma toolExecution_pure_noImage (tool : Tool) (tc : ToolCall)
    (context : ExecutionContext) (cache : List (String × String)) (r : JVal)
    (hb : context.beforeHook = .missing) (ha : context.afterHook = .missing)
    (hab : context.signalAborted = false)
    (hspec : tool.spec = .pureResult r)
    (himg : (r.truthy && (r.getField "image").truthy) = false) :
    toolExecution tool tc context cache =
      (context,
       (if tool.name != "return_output" then mapSet cache tc.id (stringify r) else cache),
       ⟨.user, .blocks [.toolResult tc.id [.text (stringify r)] false]⟩) := by
  simp only [toolExecution, hb, hab, toolExecute, hspec, ha, himg, Bool.or_false,
    Bool.false_eq_true, if_false, Bool.and_eq_true]

/-- Every path of `toolExecution` for the finish capability leaves the
tool-result cache untouched. -/
lemma toolExecution_cache_returnTool (tool : Tool) (tc : ToolCall)
    (context : ExecutionContext) (cache : List (String × String))
    (hname : tool.name = "return_output") :
    (toolExecution tool tc context cache).2.1 = cache := by
  have hne : (tool.name != "return_output") = false := by simp [hname]
  unfold toolExecution
  cases hcb : context.beforeHook <;>
    simp only [] <;>
    split <;>
    try rfl
  all_goals
    (first
      | rfl
      | (split <;>
          first
            | rfl
            | (split <;>
                first
                  | rfl
                  | simp [hne])))

lemma escapeChars_replicate_a (n : Nat) :
    escapeChars (List.replicate n 'a') = List.replicate n 'a' := by
  induction n with
  | zero => rfl
  | succ n ih =>
      rw [List.replicate_succ]
      simp only [escapeChars]
      rw [if_neg (by decide), if_neg (by decide), ih]
      rfl

lemma stringify_longAText :
    stringify (.str longAText) = String.mk ('"' :: (List.replicate 2000 'a' ++ ['"'])) := by
  have hdata : longAText.data = List.replicate 2000 'a' := rfl
  simp only [stringify, jsonQuote, hdata, escapeChars_replicate_a]

lemma length_stringify_longAText : (stringify (.str longAText)).length = 2002 := by
  rw [stringify_longAText]
  have hmk : ∀ l : List Char, (String.mk l).length = l.length := fun l => rfl
  rw [hmk, List.length_cons, List.length_append, List.length_replicate]
  rfl

/-! ## C5: what goes into the ToolResultCache

The claim says the cached textual form is truncated to roughly 1000
characters with the `...(truncated)` suffix.  In the source the `truncate`
helper is applied only to the value passed to the logger; the cache stores
the full `resultContentText`.  The claim fails on any long result; the
amended statement records the full text and keeps the finish-capability
exclusion. -/

/-- C5 counterexample.  A capability returning a 2000-character string has
the full 2002-character serialisation recorded in the cache; that entry is
not the truncated form the claim requires (the form `truncate` would
produce, first 1000 characters plus the suffix). -/
theorem toolResultCache_untruncated_counterexample :
    mapGet (toolExecution toolLong ⟨"idL", "tool_long", envInput .jnull⟩
        emptyContext []).2.1 "idL" = some (stringify (.str longAText))
    ∧ (stringify (.str longAText)).length = 2002
    ∧ stringify (.str longAText)
        ≠ String.mk ((stringify (.str longAText)).data.take 1000) ++ "...(truncated)"
    ∧ truncate (.str longAText)
        = .str (String.mk ((stringify (.str longAText)).data.take 1000) ++ "...(truncated)") := by
  have himg : ((JVal.str longAText).truthy
      && ((JVal.str longAText).getField "image").truthy) = false := by
    simp [JVal.getField, JVal.truthy]
  have hlen := length_stringify_longAText
  have hdlen : (stringify (.str longAText)).data.length = 2002 := hlen
  refine ⟨?_, hlen, ?_, ?_⟩
  · rw [toolExecution_pure_noImage toolLong _ emptyContext [] (.str longAText)
      rfl rfl rfl rfl himg]
    rw [if_pos (by decide)]
    exact mapGet_mapSet_self [] "idL" (stringify (.str longAText))
  · intro h
    have hL := congrArg String.length h
    rw [hlen, String.length_append] at hL
    have hmk : ∀ l : List Char, (String.mk l).length = l.length := fun l => rfl
    rw [hmk, List.length_take, hdlen] at hL
    have h14 : ("...(truncated)" : String).length = 14 := rfl
    rw [h14] at hL
    omega
  · unfold truncate
    rw [if_neg (by rw [hlen]; omega)]

/-- C5 amended.  For every successful non-finish capability invocation
(no image in the result), the full untruncated serialised result is
recorded in the ToolResultCache under the invocation id — the ~1000
character truncation with the `...(truncated)` suffix applies only to the
value logged, not to the cache; and results of the synthetic finish
capability `return_output` are never recorded in the cache on any path. -/
theorem toolResultCache_records_full (tool : Tool) (tc : ToolCall)
    (context : ExecutionContext) (cache : List (String × String)) (r : JVal)
    (hb : context.beforeHook = .missing) (ha : context.afterHook = .missing)
    (hab : context.signalAborted = false)
    (hspec : tool.spec = .pureResult r)
    (himg : (r.truthy && (r.getField "image").truthy) = false)
    (hname : (tool.name != "return_output") = true) :
    (toolExecution tool tc context cache).2.1 = mapSet cache tc.id (stringify r)
    ∧ (∀ tool' tc' context' cache', tool'.name = "return_output" →
        (toolExecution tool' (tc' : ToolCall) (context' : ExecutionContext)
            (cache' : List (String × String))).2.1 = cache') := by
  constructor
  · rw [toolExecution_pure_noImage tool tc context cache r hb ha hab hspec himg]
    simp [hname]
  · intro tool' tc' context' cache' hname'
    exact toolExecution_cache_returnTool tool' tc' context' cache' hname'

/-- C5 amended, witness. -/
theorem toolResultCache_records_full_witness :
    (toolExecution toolA ⟨"id1", "tool_a", envInput .jnull⟩ emptyContext []).2.1
      = mapSet [] "id1" (stringify (.str "A")) := by
  exact (toolResultCache_records_full toolA ⟨"id1", "tool_a", envInput .jnull⟩
    emptyContext [] (.str "A") rfl rfl rfl rfl rfl rfl).1

/-! ## C3: capability and hook errors are recoverable -/

/-- C3.  When the before-hook, the capability's execute, or the after-hook
throws an error with message `m`, the round produces a user `tool_result`
with `is_error` set and text exactly `Error: ` followed by `m`; the
exception never escapes `toolExecution`, and (concrete run) after a round
whose capability throws `disk full` the error result is committed to
history and the run continues with a further round instead of aborting. -/
theorem capabilityError_recoverable :
    (∀ (tool : Tool) (tc : ToolCall) (context : ExecutionContext)
        (cache : List (String × String)) (m : String),
        context.beforeHook = .throwErr m →
        toolExecution tool tc context cache =
          (context, cache,
           ⟨.user, .blocks [.toolResult tc.id [.text ("Error: " ++ m)] true]⟩))
    ∧ (∀ (tool : Tool) (tc : ToolCall) (context : ExecutionContext)
        (cache : List (String × String)) (m : String),
        context.beforeHook.isBenign = true → context.signalAborted = false →
        tool.spec = .throwErr m →
        toolExecution tool tc context cache =
          (context, cache,
           ⟨.user, .blocks [.toolResult tc.id [.text ("Error: " ++ m)] true]⟩))
    ∧ (∀ (tool : Tool) (tc : ToolCall) (context : ExecutionContext)
        (cache : List (String × String)) (r : JVal) (m : String),
        context.beforeHook.isBenign = true → context.signalAborted = false →
        tool.spec = .pureResult r → context.afterHook = .throwErr m →
        toolExecution tool tc context cache =
          (context, cache,
           ⟨.user, .blocks [.toolResult tc.id [.text ("Error: " ++ m)] true]⟩))
    ∧ (executeRun 5 "t3" "d" none [toolThrow] [] "sys" "usr"
          [attemptThrow, attemptFinishValue] emptyContext).map
        (fun p => (p.1.nodeOutput, p.2.regularRounds, p.2.forcedRounds))
        = some (.str "done", 2, 0)
    ∧ (executeRun 5 "t3" "d" none [toolThrow] [] "sys" "usr"
          [attemptThrow, attemptFinishValue] emptyContext).map
        (fun p => p.2.messages[3]?)
        = some (some ⟨.user, .blocks [.toolResult "id1" [.text "Error: disk full"] true]⟩) := by
  refine ⟨?_, ?_, ?_, rfl, rfl⟩
  · intro tool tc context cache m hb
    simp [toolExecution, hb, errorToolResultMessage]
  · intro tool tc context cache m hben hab hspec
    cases hcb : context.beforeHook with
    | missing => simp [toolExecution, hcb, hab, toolExecute, hspec, errorToolResultMessage]
    | modify v =>
        cases htv : v.truthy <;>
          simp [toolExecution, hcb, hab, htv, toolExecute, hspec, errorToolResultMessage]
    | setSkip => rw [hcb] at hben; simp [HookBehavior.isBenign] at hben
    | throwErr m' => rw [hcb] at hben; simp [HookBehavior.isBenign] at hben
  · intro tool tc context cache r m hben hab hspec hafter
    cases hcb : context.beforeHook with
    | missing =>
        simp [toolExecution, hcb, hab, toolExecute, hspec, hafter, errorToolResultMessage]
    | modify v =>
        cases htv : v.truthy <;>
          simp [toolExecution, hcb, hab, htv, toolExecute, hspec, hafter,
            errorToolResultMessage]
    | setSkip => rw [hcb] at hben; simp [HookBehavior.isBenign] at hben
    | throwErr m' => rw [hcb] at hben; simp [HookBehavior.isBenign] at hben

/-- C3 witness: the hook-error case applied at a concrete input. -/
theorem capabilityError_recoverable_witness :
    toolExecution toolA ⟨"idw", "tool_a", .jnull⟩ ⟨[], false, .throwErr "boom", .missing⟩ []
      = (⟨[], false, .throwErr "boom", .missing⟩, [],
         ⟨.user, .blocks [.toolResult "idw" [.text "Error: boom"] true]⟩) :=
  capabilityError_recoverable.1 toolA ⟨"idw", "tool_a", .jnull⟩
    ⟨[], false, .throwErr "boom", .missing⟩ [] "boom" rfl

/-! ## C7: unknown capability names

The claim says an unknown capability name leads to a committed error
`tool_result` and a completed round.  In the source, `onToolUse` builds
those messages but then throws; under the transport modelled from the
spec the throw rejects `generateStream`, so it surfaces at the stream
level catch, which discards the partial round (the buffered messages are
reset) and retries the round from scratch.  The run does not crash, but
nothing from the unknown-capability attempt is committed. -/

/-- C7 counterexample.  With a registry containing only `tool_a`, a script
whose first response calls `nonexistent_tool` and whose second calls
`tool_a` commits exactly the second response's messages: the round result
carries only the `tool_a` `tool_use` and its `tool_result`; no `tool not
found` error result appears, and the round equals the round run without
the unknown attempt at all. -/
theorem unknownTool_retry_counterexample :
    executeSingleRound [("tool_a", toolA)] [attemptUnknown, attemptA] emptyContext [] []
      = some ([], emptyContext, [("id1", stringify (.str "A"))], [],
          ⟨some ⟨"", [⟨"id1", "tool_a", envInput .jnull⟩]⟩, true,
           [⟨.assistant, .blocks [.toolUse "id1" "tool_a" (envInput .jnull)]⟩,
            ⟨.user, .blocks [.toolResult "id1" [.text (stringify (.str "A"))] false]⟩]⟩)
    ∧ executeSingleRound [("tool_a", toolA)] [attemptUnknown, attemptA] emptyContext [] []
        = executeSingleRound [("tool_a", toolA)] [attemptA] emptyContext [] [] :=
  ⟨rfl, rfl⟩

/-- C7 amended.  When the model invokes a capability name absent from the
registry, the synthesized error `tool_result` is discarded rather than
committed: the thrown `onToolUse` error surfaces at the stream-level
catch and the round is retried from scratch on the rest of the transport
script, with history only image-pruned; the run itself does not crash. -/
theorem unknownTool_retries (toolMap : List (String × Tool)) (a : Attempt)
    (rest : List Attempt) (context : ExecutionContext)
    (toolResults : List (String × String)) (messages : List Message) (tc : ToolCall)
    (hab : context.signalAborted = false) (hfail : a.transportError = false)
    (htc : a.toolUse = some tc) (hlookup : mapGet toolMap tc.name = none) :
    executeSingleRound toolMap (a :: rest) context toolResults messages =
      executeSingleRound toolMap rest context toolResults
        (handleHistoryImageMessages messages) := by
  simp [executeSingleRound, hab, hfail, htc, hlookup]

/-! ## C2: `use_tool_result` resolves to the last cached result -/

/-- C2.  When the stored finish payload is present and its
`use_tool_result` field is truthy, finalization returns the most recently
inserted ToolResultCache value (insertion order is invocation order,
since each invocation id is fresh), and the empty object when the cache
is empty; concretely, with cached values `A` then `B` the outcome is `B`,
a full run caching the results of `tool_a` then `tool_b` returns the
serialisation of `B`, and a full run that cached nothing returns the
empty object. -/
theorem useToolResult_lastCached :
    (∀ (name : String) (context : ExecutionContext)
        (toolResults : List (String × String)),
        (varGet context.vars ("__action_" ++ name ++ "_output")).truthy = true →
        ((varGet context.vars ("__action_" ++ name ++ "_output")).getField
            "use_tool_result").truthy = true →
        (∀ v, (toolResults.map (fun p => p.2)).getLast? = some v →
            (finalizeOutput name context toolResults).2 = .str v)
        ∧ ((toolResults.map (fun p => p.2)).getLast? = none →
            (finalizeOutput name context toolResults).2 = JVal.mkObj []))
    ∧ (finalizeOutput "t"
        ⟨[("__action_t_output", JVal.mkObj [("use_tool_result", .bool true)])],
         false, .missing, .missing⟩
        [("id1", "A"), ("id2", "B")]).2 = .str "B"
    ∧ (executeRun 10 "c2" "d" none [toolA, toolB] [] "sys" "usr"
          [attemptA, attemptB, attemptFinishReuse] emptyContext).map
        (fun p => p.1.nodeOutput) = some (.str (stringify (.str "B")))
    ∧ (executeRun 10 "c2e" "d" none [] [] "sys" "usr"
          [attemptFinishReuse] emptyContext).map
        (fun p => p.1.nodeOutput) = some (JVal.mkObj []) := by
  refine ⟨?_, rfl, rfl, rfl⟩
  intro name context toolResults h1 h2
  constructor
  · intro v hv
    simp [finalizeOutput, h1, h2, hv]
  · intro hnone
    simp [finalizeOutput, h1, h2, hnone]

/-- C2 witness: the general part applied at a concrete cache. -/
theorem useToolResult_lastCached_witness :
    (finalizeOutput "w2"
        ⟨[("__action_w2_output", JVal.mkObj [("use_tool_result", .bool true)])],
         false, .missing, .missing⟩
        [("i1", "A"), ("i2", "B")]).2 = .str "B" := by
  exact ((useToolResult_lastCached.1 "w2"
      ⟨[("__action_w2_output", JVal.mkObj [("use_tool_result", .bool true)])],
       false, .missing, .missing⟩
      [("i1", "A"), ("i2", "B")] rfl rfl).1 "B" rfl)

/-! ## C8: a text-only response forces exactly one finish round -/

/-- C8.  When a regular round yields a model response with no capability
invocation, the loop appends the explicit return-request instruction,
runs exactly one more round restricted to the finish capability alone,
appends that round's messages, and terminates — for every remaining round
budget, so no further regular round can follow. -/
theorem textOnly_forcedFinish (maxRounds fuel : Nat)
    (toolMap returnOnlyMap : List (String × Tool)) (ls : LoopState)
    (script₁ : List Attempt) (context₁ : ExecutionContext)
    (toolResults₁ : List (String × String)) (messages₁ : List Message)
    (round : RoundResult)
    (hlt : ls.roundCount < maxRounds)
    (hab : ls.context.signalAborted = false)
    (hround : executeSingleRound toolMap ls.script ls.context ls.toolResults ls.messages
        = some (script₁, context₁, toolResults₁, messages₁, round))
    (hnotool : round.hasToolUse = false)
    (hresp : round.response.isSome = true) :
    mainLoop maxRounds toolMap returnOnlyMap (fuel + 1) ls =
      match executeSingleRound returnOnlyMap script₁ context₁ toolResults₁
          (messages₁ ++ round.roundMessages ++ [requestReturnMessage]) with
      | none => none
      | some (script₂, context₂, toolResults₂, messages₂, finalRound) =>
          some ⟨script₂, context₂, toolResults₂, messages₂ ++ finalRound.roundMessages,
                ls.roundCount + 1, ls.regularRounds + 1, ls.forcedRounds + 1⟩ := by
  simp [mainLoop, hlt, hab, hround, hnotool, hresp]

/-- C8 witness: a text-only round followed by a finish-only round at
concrete inputs (the budget argument 2 is arbitrary: the run still ends
after the single forced round). -/
theorem textOnly_forcedFinish_witness :
    mainLoop 3 [("tool_a", toolA)] [("return_output", createReturnTool "w8" "d" none)] 3
      ⟨[attemptTextOnly, attemptFinishValue], emptyContext, [], [], 0, 0, 0⟩
      = some textOnlyRunFinal := by
  exact textOnly_forcedFinish 3 2 [("tool_a", toolA)]
    [("return_output", createReturnTool "w8" "d" none)]
    ⟨[attemptTextOnly, attemptFinishValue], emptyContext, [], [], 0, 0, 0⟩
    [attemptFinishValue] emptyContext [] []
    ⟨some ⟨"hello", []⟩, false, [⟨.assistant, .str "hello"⟩]⟩
    (by decide) rfl rfl rfl rfl

/-! ## C1: the round budget -/

lemma mainLoop_guard_false (maxRounds : Nat) (toolMap returnOnlyMap : List (String × Tool))
    (fuel : Nat) (ls : LoopState) (h : ¬ ls.roundCount < maxRounds) :
    mainLoop maxRounds toolMap returnOnlyMap fuel ls = some ls := by
  cases fuel <;> simp [mainLoop, h]

lemma mainLoop_counts (maxRounds : Nat) (toolMap returnOnlyMap : List (String × Tool)) :
    ∀ (fuel : Nat) (ls res : LoopState),
    mainLoop maxRounds toolMap returnOnlyMap fuel ls = some res →
      res.roundCount + ls.regularRounds = res.regularRounds + ls.roundCount
      ∧ (res.roundCount ≤ maxRounds ∨ res.roundCount = ls.roundCount)
      ∧ ls.regularRounds ≤ res.regularRounds
      ∧ ls.forcedRounds ≤ res.forcedRounds
      ∧ res.forcedRounds ≤ ls.forcedRounds + 1 := by
  intro fuel
  induction fuel with
  | zero =>
      intro ls res h
      simp only [mainLoop] at h
      split at h
      · exact absurd h (by simp)
      · obtain rfl : ls = res := by injection h
        exact ⟨by omega, Or.inr rfl, le_refl _, le_refl _, by omega⟩
  | succ fuel ih =>
      intro ls res h
      simp only [mainLoop] at h
      split at h
      case isTrue hguard =>
        split at h
        · exact absurd h (by simp)
        · split at h
          case h_1 => exact absurd h (by simp)
          case h_2 script₁ context₁ toolResults₁ messages₁ round heq =>
            split at h
            · -- text-only: one forced round then stop
              split at h
              case h_1 => exact absurd h (by simp)
              case h_2 =>
                obtain rfl : _ = res := by injection h
                refine ⟨?_, Or.inl ?_, ?_, ?_, ?_⟩ <;> (dsimp only; omega)
            · split at h
              · -- finish capability called: stop
                obtain rfl : _ = res := by injection h
                refine ⟨?_, Or.inl ?_, ?_, ?_, ?_⟩ <;> (dsimp only; omega)
              · split at h
                case isTrue hmax =>
                  -- configured maximum reached: one forced round, then the
                  -- loop condition fails
                  split at h
                  case h_1 => exact absurd h (by simp)
                  case h_2 =>
                    rw [mainLoop_guard_false _ _ _ _ _ (by dsimp only; omega)] at h
                    obtain rfl : _ = res := by injection h
                    refine ⟨?_, Or.inl ?_, ?_, ?_, ?_⟩ <;> (dsimp only; omega)
                case isFalse hmax =>
                  have hih := ih _ _ h
                  obtain ⟨i1, i2, i3, i4, i5⟩ := hih
                  dsimp only at i1 i2 i3 i4 i5
                  refine ⟨by omega, ?_, by omega, by omega, by omega⟩
                  rcases i2 with h1 | h1
                  · exact Or.inl h1
                  · exact Or.inl (by omega)
      case isFalse hguard =>
        obtain rfl : ls = res := by injection h
        exact ⟨by omega, Or.inr rfl, le_refl _, le_refl _, by omega⟩

/-- C1.  For every completed run, the number of committed regular rounds
never exceeds the configured `maxRounds`, at most one extra forced-finish
round is committed (so at most `maxRounds + 1` rounds in total), and the
round counter equals the number of committed regular rounds — it grows by
exactly one per regular round. -/
theorem roundBudget_bound (maxRounds : Nat) (name outputDescription : String)
    (outputSchema : Option JVal) (tools ctxTools : List Tool)
    (systemPrompt userPrompt : String) (script : List Attempt)
    (context : ExecutionContext) (out : RunOutput) (final : LoopState)
    (h : executeRun maxRounds name outputDescription outputSchema tools ctxTools
        systemPrompt userPrompt script context = some (out, final)) :
    final.regularRounds ≤ maxRounds
    ∧ final.forcedRounds ≤ 1
    ∧ final.regularRounds + final.forcedRounds ≤ maxRounds + 1
    ∧ final.roundCount = final.regularRounds := by
  simp only [executeRun] at h
  split at h
  · exact absurd h (by simp)
  case h_2 ls hml =>
    have hc := mainLoop_counts maxRounds _ _ maxRounds _ ls hml
    dsimp only at hc
    injection h with h'
    have hfinal : final
        = { ls with context := (finalizeOutput name ls.context ls.toolResults).1 } :=
      (congrArg Prod.snd h').symm
    obtain ⟨h1, h2, h3, h4, h5⟩ := hc
    rw [hfinal]
    dsimp only
    rcases h2 with h2 | h2
    · exact ⟨by omega, by omega, by omega, by omega⟩
    · exact ⟨by omega, by omega, by omega, by omega⟩

/-- C1 witness: the bound applied to the concrete finish-only run. -/
theorem roundBudget_bound_witness :
    finishOnlyRunFinal.regularRounds ≤ 2
    ∧ finishOnlyRunFinal.forcedRounds ≤ 1
    ∧ finishOnlyRunFinal.regularRounds + finishOnlyRunFinal.forcedRounds ≤ 2 + 1
    ∧ finishOnlyRunFinal.roundCount = finishOnlyRunFinal.regularRounds := by
  exact roundBudget_bound 2 "w1" "d" none [] [] "s" "u" [attemptFinishReuse]
    emptyContext ⟨JVal.mkObj [], finishOnlyRunMessages⟩ finishOnlyRunFinal rfl

/-- C7 amended, witness. -/
theorem unknownTool_retries_witness :
    executeSingleRound [("tool_a", toolA)] [attemptUnknown] emptyContext [] []
      = executeSingleRound [("tool_a", toolA)] [] emptyContext []
        (handleHistoryImageMessages []) := by
  exact unknownTool_retries [("tool_a", toolA)] attemptUnknown [] emptyContext [] []
    ⟨"id0", "nonexistent_tool", envInput .jnull⟩ rfl rfl rfl rfl

/-! ## C6: image pruning is idempotent and protects the newest user turn -/

lemma stripBlock_idem (b : ContentBlock) : stripBlock (stripBlock b) = stripBlock b := by
  cases b with
  | toolUse id name input => rfl
  | toolResultStr id content => rfl
  | toolResult id content isErr =>
      by_cases hc : content.length > 0
      · simp only [stripBlock, if_pos hc]
        by_cases hf : (content.filter (fun x => !x.isImage)).length = 0
        · simp only [if_pos hf]
          simp [stripBlock, ContentItem.isImage]
        · simp only [if_neg hf]
          have hlen : (content.filter (fun x => !x.isImage)).length > 0 :=
            Nat.pos_of_ne_zero hf
          simp only [stripBlock, if_pos hlen]
          rw [List.filter_filter]
          simp only [Bool.and_self]
          rw [if_neg hf]
      · simp only [stripBlock, if_neg hc]

lemma stripMsg_role (m : Message) : (stripMsg m).role = m.role := by
  cases m with
  | mk role content => cases content <;> rfl

lemma stripMsg_idem (m : Message) : stripMsg (stripMsg m) = stripMsg m := by
  cases m with
  | mk role content =>
      cases content with
      | str s => rfl
      | blocks items =>
          simp [stripMsg, List.map_map, Function.comp_def, stripBlock_idem]

lemma pruneRev_idem (b : Bool) (l : List Message) :
    pruneRev b (pruneRev b l) = pruneRev b l := by
  induction l generalizing b with
  | nil => rfl
  | cons m rest ih =>
      by_cases hm : m.role = .user
      · cases b
        · simp [pruneRev, hm, ih true]
        · simp [pruneRev, hm, stripMsg_role, stripMsg_idem, ih true]
      · simp [pruneRev, hm, ih b]

lemma pruneRev_true_map (l : List Message) : pruneRev true l = l.map stripIfUser := by
  induction l with
  | nil => rfl
  | cons m rest ih =>
      by_cases hm : m.role = .user <;> simp [pruneRev, stripIfUser, hm, ih]

lemma pruneRev_noUser_append (l l₂ : List Message) (b : Bool)
    (h : ∀ x ∈ l, x.role ≠ .user) :
    pruneRev b (l ++ l₂) = l ++ pruneRev b l₂ := by
  induction l with
  | nil => rfl
  | cons m rest ih =>
      have hm : m.role ≠ .user := h m (List.mem_cons_self m rest)
      simp only [List.cons_append, pruneRev, if_neg hm]
      rw [show rest.append l₂ = rest ++ l₂ from rfl,
        ih (fun x hx => h x (List.mem_cons_of_mem m hx))]

/-- C6.  Image pruning is idempotent; on a history that splits as earlier
messages, the most recent user-role message, and later non-user messages,
it maps the earlier part pointwise (stripping exactly the user-role
messages) while the most recent user-role message and everything after it
are returned untouched — so its image blocks survive; and stripping a
nonempty `tool_result` removes exactly the image items, keeps every
non-image item, never leaves the content empty, and substitutes the
single `ok` text block when only images were present. -/
theorem imagePrune_idempotent_spec :
    (∀ messages, handleHistoryImageMessages (handleHistoryImageMessages messages)
        = handleHistoryImageMessages messages)
    ∧ (∀ (l₁ : List Message) (m : Message) (l₂ : List Message),
        m.role = .user → (∀ x ∈ l₂, x.role ≠ .user) →
        handleHistoryImageMessages (l₁ ++ m :: l₂) = l₁.map stripIfUser ++ m :: l₂)
    ∧ (∀ (id : String) (content : List ContentItem) (isErr : Bool), content ≠ [] →
        ∃ content',
          stripBlock (.toolResult id content isErr) = .toolResult id content' isErr
          ∧ content' ≠ []
          ∧ (∀ x ∈ content', x.isImage = false)
          ∧ (content.filter (fun x => !x.isImage) ≠ [] →
              content' = content.filter (fun x => !x.isImage))
          ∧ (content.filter (fun x => !x.isImage) = [] → content' = [.text "ok"])) := by
  refine ⟨?_, ?_, ?_⟩
  · intro messages
    unfold handleHistoryImageMessages
    rw [List.reverse_reverse, pruneRev_idem]
  · intro l₁ m l₂ hm h₂
    unfold handleHistoryImageMessages
    rw [List.reverse_append, List.reverse_cons, List.append_assoc,
      pruneRev_noUser_append _ _ _ (fun x hx => h₂ x (List.mem_reverse.mp hx))]
    simp only [List.singleton_append, pruneRev, hm, if_pos, if_true, if_neg]
    rw [pruneRev_true_map]
    simp [List.reverse_append, List.map_reverse]
  · intro id content isErr hc
    have hlen : content.length > 0 := List.length_pos.mpr hc
    by_cases hf : content.filter (fun x => !x.isImage) = []
    · refine ⟨[.text "ok"], ?_, by simp, ?_, fun h => absurd hf h, fun _ => rfl⟩
      · simp only [stripBlock, if_pos hlen, hf]
        simp
      · intro x hx
        simp only [List.mem_singleton] at hx
        rw [hx]
        rfl
    · refine ⟨content.filter (fun x => !x.isImage), ?_, hf, ?_, fun _ => rfl,
        fun h => absurd h hf⟩
      · simp only [stripBlock, if_pos hlen]
        rw [if_neg (fun h => hf (List.length_eq_zero.mp h))]
      · intro x hx
        have := (List.mem_filter.mp hx).2
        simpa using this

/-- C6 witness: idempotency and the split characterization at a concrete
two-user-message history. -/
theorem imagePrune_idempotent_spec_witness :
    handleHistoryImageMessages (handleHistoryImageMessages
        [⟨.user, .blocks [.toolResult "i" [.image .jnull] false]⟩])
      = handleHistoryImageMessages
          [⟨.user, .blocks [.toolResult "i" [.image .jnull] false]⟩]
    ∧ handleHistoryImageMessages
        ([⟨.user, .blocks [.toolResult "a" [.image .jnull] false]⟩]
          ++ ⟨.user, .blocks [.toolResult "b" [.image .jnull] false]⟩ :: [])
      = [⟨.user, .blocks [.toolResult "a" [.image .jnull] false]⟩].map stripIfUser
          ++ ⟨.user, .blocks [.toolResult "b" [.image .jnull] false]⟩ :: [] := by
  refine ⟨imagePrune_idempotent_spec.1 _, ?_⟩
  exact imagePrune_idempotent_spec.2.1
    [⟨.user, .blocks [.toolResult "a" [.image .jnull] false]⟩]
    ⟨.user, .blocks [.toolResult "b" [.image .jnull] false]⟩ [] rfl
    (fun x hx => absurd hx (List.not_mem_nil x))

/-! ## C10: the round wraps schemas only on its deep copy -/

lemma wrapAt_read_ne (h : DefHeap) (x a : Nat) (hax : a ≠ x) :
    (wrapAt h x).read a = h.read a := by
  unfold wrapAt DefHeap.read
  simp only
  rw [List.getD_eq_getElem?_getD, List.getD_eq_getElem?_getD,
    List.getElem?_set_ne (fun e => hax e.symm)]
  exact (List.getD_eq_getElem?_getD _ _ _).symm

lemma wrapAt_length (h : DefHeap) (x : Nat) :
    (wrapAt h x).cells.length = h.cells.length := by
  unfold wrapAt
  simp [List.length_set]

lemma wrapAll_read_notMem (h : DefHeap) (as : List Nat) (a : Nat) (ha : a ∉ as) :
    (wrapAll h as).read a = h.read a := by
  induction as generalizing h with
  | nil => rfl
  | cons x rest ih =>
      have hax : a ≠ x := fun e => ha (e ▸ List.mem_cons_self x rest)
      rw [wrapAll, ih (wrapAt h x) (fun hm => ha (List.mem_cons_of_mem x hm)),
        wrapAt_read_ne h x a hax]

lemma wrapAll_length (h : DefHeap) (as : List Nat) :
    (wrapAll h as).cells.length = h.cells.length := by
  induction as generalizing h with
  | nil => rfl
  | cons x rest ih => rw [wrapAll, ih, wrapAt_length]

lemma wrapAll_read_mem (h : DefHeap) (as : List Nat) (a : Nat) (hmem : a ∈ as)
    (hnd : as.Nodup) (hlt : a < h.cells.length) :
    (wrapAll h as).read a = wrapToolInputSchema (h.read a) := by
  induction as generalizing h with
  | nil => cases hmem
  | cons x rest ih =>
      rw [wrapAll]
      rcases List.mem_cons.mp hmem with rfl | hmem'
      · have hnot : a ∉ rest := (List.nodup_cons.mp hnd).1
        rw [wrapAll_read_notMem _ _ _ hnot]
        unfold wrapAt DefHeap.read
        simp only
        rw [List.getD_eq_getElem?_getD, List.getElem?_set_eq_of_lt _ hlt]
        rfl
      · have hax : a ≠ x := by
          rintro rfl
          exact (List.nodup_cons.mp hnd).1 hmem'
        rw [ih (wrapAt h x) hmem' (List.nodup_cons.mp hnd).2
          (by rw [wrapAt_length]; exact hlt), wrapAt_read_ne h x a hax]

/-- C10.  The preparation step of `executeSingleRound` (deep copy of the
parameters, then in-place envelope wrapping of every copied schema) leaves
every definition the caller's `params.tools` points to unchanged, while
the round's own parameters point at fresh addresses holding the wrapped
copies of exactly the caller's definitions. -/
theorem paramsCopy_frame (h : DefHeap) (paramsTools : List Nat) (a : Nat)
    (ha : a < h.cells.length) :
    (prepareRoundParams h paramsTools).1.read a = h.read a
    ∧ (prepareRoundParams h paramsTools).2
        = List.range' h.cells.length paramsTools.length
    ∧ (∀ i, i < paramsTools.length →
        (prepareRoundParams h paramsTools).1.read (h.cells.length + i)
          = wrapToolInputSchema (h.read (paramsTools.getD i 0))) := by
  refine ⟨?_, rfl, ?_⟩
  · unfold prepareRoundParams deepCopyTools
    simp only
    rw [wrapAll_read_notMem _ _ _ (by
      intro hmem
      have := (List.mem_range'_1.mp hmem).1
      omega)]
    unfold DefHeap.read
    simp only
    rw [List.getD_eq_getElem?_getD, List.getD_eq_getElem?_getD,
      List.getElem?_append_left ha]
  · intro i hi
    unfold prepareRoundParams deepCopyTools
    simp only
    rw [wrapAll_read_mem _ _ _
      (List.mem_range'_1.mpr ⟨Nat.le_add_right _ _, by omega⟩)
      (List.nodup_range' _ _)
      (by simp [List.length_append, List.length_map]; omega)]
    congr 1
    unfold DefHeap.read
    simp only
    rw [List.getD_eq_getElem?_getD,
      List.getElem?_append_right (Nat.le_add_right _ _)]
    have hidx : h.cells.length + i - h.cells.length = i := by omega
    rw [hidx, List.getElem?_map, List.getElem?_eq_getElem hi]
    have hgetD : paramsTools.getD i 0 = paramsTools[i] := by
      rw [List.getD_eq_getElem?_getD, List.getElem?_eq_getElem hi]
      rfl
    rw [hgetD]
    rfl

/-- C10 witness: the frame property applied to a one-definition heap. -/
theorem paramsCopy_frame_witness :
    (prepareRoundParams ⟨[⟨"t", "d", .jnull⟩]⟩ [0]).1.read 0
      = DefHeap.read ⟨[⟨"t", "d", .jnull⟩]⟩ 0 := by
  exact (paramsCopy_frame ⟨[⟨"t", "d", .jnull⟩]⟩ [0] 0 (by decide)).1

end Eko
